import Mathlib

/-!
Shallow embedding of the RAG vector-store core of this repository
(`backend/template/agent/tools/read_pdf.py`) and proofs about it.

Modelling conventions:
* Python `float` values are modelled by `ℚ`; `math.sqrt` is modelled by the
  computable `Rat.sqrt` (no claim depends on the numeric value of a square
  root, only on which branch of `cosine_similarity` is taken).
* The remote OpenAI embedding call is an external collaborator; its outcome
  is passed in as an explicit `EmbedResp` argument (`none` = the call raised
  an exception, `some data` = the ordered list of response vectors).
* File I/O (`load_db` / `save_db`) is modelled by passing the persisted
  tenant state `DB` in and out of `ingest_pdf_to_db`; on every failure path
  the state is returned untouched, exactly as the Python code returns before
  ever calling `save_db`.
* Python strings are modelled through their lists of characters
  (`String.data`); slicing `tokens[s:e]` is `slice`, `str.strip()` is
  `pyStripList` (both ends, whitespace characters).
-/

namespace ReadPdf

/-- Embedding vectors: Python `List[float]`, modelled with rationals. -/
abbrev Vec := List ℚ

/-- Python `str.strip()` on a list of characters: drop whitespace from both
ends. -/
def pyStripList (s : List Char) : List Char :=
  ((s.dropWhile Char.isWhitespace).reverse.dropWhile Char.isWhitespace).reverse

/-- `pyStripList` lifted back to `String`. -/
def pyStrip (s : String) : String :=
  String.mk (pyStripList s.data)

/-- Python slice `tokens[s:e]`. -/
def slice (tokens : List Char) (s e : Nat) : List Char :=
  (tokens.drop s).take (e - s)

/-- The `while start < n` loop of `chunk_text`, recorded as the list of
`(start, end)` spans it visits: `end = min (start + maxChars) n`; the loop
stops after a span ending at `n` and otherwise continues from
`end - overlap` (truncated `Nat` subtraction is Python's
`max(0, end - overlap)`).  `fuel` bounds the number of iterations;
`chunkSpans` supplies fuel `n`, which suffices whenever
`overlap < maxChars`, because then every iteration advances `start` by at
least one (mirroring that the Python loop only terminates under that same
precondition). -/
def chunkSpansAux (n maxChars overlap : Nat) : Nat → Nat → List (Nat × Nat)
  | _, 0 => []
  | start, fuel + 1 =>
    if start < n then
      let e := min (start + maxChars) n
      if e = n then [(start, e)]
      else (start, e) :: chunkSpansAux n maxChars overlap (e - overlap) fuel
    else []

/-- Spans visited by the chunking loop over a text of `n` characters. -/
def chunkSpans (n maxChars overlap : Nat) : List (Nat × Nat) :=
  chunkSpansAux n maxChars overlap 0 n

/-- `chunk_text(text, max_chars, overlap)`: empty text gives no chunks;
otherwise each visited span is sliced out of the text, stripped, and empty
results are dropped (`[c for c in chunks if c]`). -/
def chunk_text (text : String) (maxChars overlap : Nat) : List String :=
  if text = "" then []
  else
    let tokens := text.data
    let windows := (chunkSpans tokens.length maxChars overlap).map
      (fun p => slice tokens p.1 p.2)
    ((windows.map pyStripList).filter (fun c => decide (c ≠ []))).map String.mk

/-- Outcome of the remote `client.embeddings.create(...)` call: `none`
models a raised exception, `some data` the ordered response vectors
(`[d.embedding for d in resp.data]`). -/
abbrev EmbedResp := Option (List Vec)

/-- `embed_texts(client, texts)`: empty input returns `[]` without calling
the provider; a raised provider exception is caught and `[]` is returned;
otherwise the response vectors are returned in order. -/
def embed_texts (resp : EmbedResp) (texts : List String) : List Vec :=
  if texts = [] then []
  else
    match resp with
    | some data => data
    | none => []

/-- Accumulated `dot` of the `for x, y in zip(a, b)` loop. -/
def zdot (a b : Vec) : ℚ := ((a.zip b).map (fun p => p.1 * p.2)).sum

/-- Accumulated `na` of the `for x, y in zip(a, b)` loop. -/
def zna (a b : Vec) : ℚ := ((a.zip b).map (fun p => p.1 * p.1)).sum

/-- Accumulated `nb` of the `for x, y in zip(a, b)` loop. -/
def znb (a b : Vec) : ℚ := ((a.zip b).map (fun p => p.2 * p.2)).sum

/-- `cosine_similarity(a, b)`: accumulate over `zip(a, b)`, return `0.0`
when either accumulated norm is zero, otherwise divide. -/
def cosine_similarity (a b : Vec) : ℚ :=
  if zna a b = 0 ∨ znb a b = 0 then 0
  else zdot a b / (Rat.sqrt (zna a b) * Rat.sqrt (znb a b))

/-- Full-vector sum of squared components: the "magnitude" the spec speaks
about (`sum of squared components`). -/
def sumsq (v : Vec) : ℚ := (v.map (fun x => x * x)).sum

/-- One stored chunk record `{chunk_id, text, embedding}`. -/
structure Chunk where
  chunk_id : String
  text : String
  embedding : Vec
deriving DecidableEq, Repr

/-- One stored document record `{document_id, source_path, name, chunks}`. -/
structure Document where
  document_id : String
  source_path : String
  name : String
  chunks : List Chunk
deriving DecidableEq, Repr

/-- The persisted tenant state `{"documents": [...]}`. -/
structure DB where
  documents : List Document
deriving DecidableEq, Repr

/-- The `record` dictionary built by `ingest_pdf_to_db`:
`enumerate(zip(chunks, vectors))` paired into chunk records with identifiers
`f"{doc_id}_{i}"`. -/
def ingestRecord (doc_id source_path pdf_name : String)
    (chunks : List String) (vectors : List Vec) : Document :=
  { document_id := doc_id
    source_path := source_path
    name := pdf_name
    chunks := ((chunks.zip vectors).enum).map
      (fun ip =>
        { chunk_id := doc_id ++ "_" ++ toString ip.1
          text := ip.2.1
          embedding := ip.2.2 }) }

/-- `ingest_pdf_to_db`: validate extracted text, chunk, embed, and append
one document.  `raw_text` is the result of the external
`extract_text_from_pdf` call, `doc_id` the fresh `uuid.uuid4()` value,
`source_path` / `pdf_name` the `os.path` values.  Returns the optional
document id together with the persisted state after the call (the state is
only written, via `save_db`, on the success path). -/
def ingest_pdf_to_db (raw_text : String) (resp : EmbedResp)
    (doc_id source_path pdf_name : String) (db : DB) : Option String × DB :=
  if raw_text = "" then (none, db)
  else if chunk_text raw_text 1200 150 = [] then (none, db)
  else if embed_texts resp (chunk_text raw_text 1200 150) = [] ∨
      (embed_texts resp (chunk_text raw_text 1200 150)).length ≠
        (chunk_text raw_text 1200 150).length then (none, db)
  else
    (some doc_id,
      ⟨db.documents ++ [ingestRecord doc_id source_path pdf_name
        (chunk_text raw_text 1200 150)
        (embed_texts resp (chunk_text raw_text 1200 150))]⟩)

/-- The `results` list built by the ranking loop of `search_db`: one scored
entry per chunk of every document, in store order. -/
def scoredResults (q : Vec) (docs : List Document) : List (ℚ × String × String) :=
  docs.flatMap (fun doc => doc.chunks.map
    (fun ch => (cosine_similarity q ch.embedding, ch.text, doc.source_path)))

/-- Comparison used by `results.sort(key=lambda x: x[0], reverse=True)`:
`x` may stay before `y` iff `x`'s score is at least `y`'s. -/
def rankLE (x y : ℚ × String × String) : Bool := decide (y.1 ≤ x.1)

/-- The ranking part of `search_db`: stable descending sort of the scored
results (Python's `list.sort` is stable, modelled by `mergeSort`), then
`results[: max(1, top_k)]`. -/
def rank (q : Vec) (docs : List Document) (top_k : Int) : List (ℚ × String × String) :=
  ((scoredResults q docs).mergeSort rankLE).take (max 1 top_k).toNat

/-- Total number of chunks across the tenant's documents. -/
def totalChunks (docs : List Document) : Nat :=
  (docs.map (fun d => d.chunks.length)).sum

/-- `search_db(db_path, client, query, top_k)`: empty store returns `[]`;
a failed query embedding returns `[]`; otherwise rank all chunks. -/
def search_db (db : DB) (resp : EmbedResp) (query : String) (top_k : Int) :
    List (ℚ × String × String) :=
  if db.documents = [] then []
  else
    match embed_texts resp [query] with
    | [] => []
    | q :: _ => rank q db.documents top_k

/-- Left-pad a digit string with zeros to width `k`. -/
def padZeros (k : Nat) (s : String) : String :=
  String.mk (List.replicate (k - s.length) '0') ++ s

/-- Model of Python `f"{q:.4f}"` (fixed-point, four decimals).  The exact
rounding convention differs from CPython's in ties; no claim depends on the
rendered digits, only on `retrieve` being total. -/
def fmt4 (q : ℚ) : String :=
  let n : Int := round (q * 10000)
  let sign := if n < 0 then "-" else ""
  let m := n.natAbs
  sign ++ toString (m / 10000) ++ "." ++ padZeros 4 (toString (m % 10000))

/-- `snippet.replace("\n", " ")`. -/
def collapseNewlines (s : String) : String :=
  String.mk (s.data.map (fun c => if c = '\n' then ' ' else c))

/-- The per-hit snippet: strip, collapse newlines, truncate past 800
characters with a trailing ellipsis. -/
def snippetOf (text : String) : String :=
  let s := collapseNewlines (pyStrip text)
  if 800 < s.data.length then String.mk (s.data.take 800) ++ "..." else s

/-- One formatted result line of `retrieve`. -/
def formatHit (i : Nat) (hit : ℚ × String × String) : String :=
  "[" ++ toString i ++ "] score=" ++ fmt4 hit.1 ++ " | source=" ++ hit.2.2
    ++ "\n" ++ snippetOf hit.2.1 ++ "\n"

/-- The `"No results found..."` message of `retrieve`. -/
def noResultsMsg (user_id session_id : Int) : String :=
  "No results found in the knowledge base for user " ++ toString user_id
    ++ ", session " ++ toString session_id
    ++ ". Please upload a PDF document first."

/-- `"\n".join(lines)` over the formatted hits (`enumerate(hits, 1)`). -/
def formatHits (hits : List (ℚ × String × String)) : String :=
  String.intercalate "\n" (hits.enum.map (fun ih => formatHit (ih.1 + 1) ih.2))

/-- The `retrieve` tool.  `clientExc` models the one statement of the `try`
body that can raise, `get_openai_client()` (it re-raises after logging);
`some e` is the stringified exception the outer handler catches.  `db` is
the tenant state loaded from the resolved per-user path (`load_db` itself
never raises: it reinitializes on corrupt state).  The `isinstance` guard
cannot fire in a typed embedding, so the validation check is `query = ""`. -/
def retrieve (query : String) (user_id session_id : Int) (top_k : Int)
    (clientExc : Option String) (db : DB) (resp : EmbedResp) : String :=
  if query = "" then "Query must be a non-empty string."
  else
    match clientExc with
    | some e => "[retrieve tool error] " ++ e
    | none =>
      let hits := search_db db resp query top_k
      if hits = [] then noResultsMsg user_id session_id
      else formatHits hits

/-- Reconstruction operation named by the chunk-coverage claim: concatenate
the chunks, first chunk whole, every later chunk with its `overlap`-length
duplicated leading characters removed. -/
def reassemble (chunks : List String) (overlap : Nat) : String :=
  match chunks with
  | [] => ""
  | c :: rest => String.mk (c.data ++ (rest.map (fun s => s.data.drop overlap)).flatten)

/-- Gluing of the spans after the first: each contributes its slice with the
first `o` characters removed. -/
def glueTail (tokens : List Char) (o : Nat) (spans : List (Nat × Nat)) : List Char :=
  (spans.map (fun p => slice tokens (p.1 + o) p.2)).flatten

/-- Gluing of a full span list: head slice whole, tail slices with their
`o`-character overlap removed. -/
def glueSpans (tokens : List Char) (o : Nat) : List (Nat × Nat) → List Char
  | [] => []
  | p :: rest => slice tokens p.1 p.2 ++ glueTail tokens o rest

/-! ## Helper lemmas -/

theorem sum_of_squares_eq_zero {l : List ℚ} (h : (l.map (fun x => x * x)).sum = 0) :
    ∀ x ∈ l, x = 0 := by
  intro x hx
  have hnn : ∀ y ∈ l.map (fun x => x * x), (0 : ℚ) ≤ y := by
    intro y hy
    obtain ⟨z, _, rfl⟩ := List.mem_map.1 hy
    exact mul_self_nonneg z
  have hz := List.all_zero_of_le_zero_le_of_sum_eq_zero hnn h
      (List.mem_map_of_mem (fun x => x * x) hx)
  exact mul_self_eq_zero.mp hz

theorem zna_eq_zero_of_sumsq_eq_zero {a : Vec} (b : Vec) (h : sumsq a = 0) :
    zna a b = 0 := by
  apply List.sum_eq_zero
  intro y hy
  obtain ⟨p, hp, rfl⟩ := List.mem_map.1 hy
  have hmem : p.1 ∈ a := (List.of_mem_zip hp).1
  have h1 : p.1 = 0 := sum_of_squares_eq_zero h p.1 hmem
  simp [h1]

theorem znb_eq_zero_of_sumsq_eq_zero (a : Vec) {b : Vec} (h : sumsq b = 0) :
    znb a b = 0 := by
  apply List.sum_eq_zero
  intro y hy
  obtain ⟨p, hp, rfl⟩ := List.mem_map.1 hy
  have hmem : p.2 ∈ b := (List.of_mem_zip hp).2
  have h1 : p.2 = 0 := sum_of_squares_eq_zero h p.2 hmem
  simp [h1]

theorem zip_take_min (a b : Vec) :
    (a.take (min a.length b.length)).zip (b.take (min a.length b.length)) = a.zip b := by
  have h : (a.zip b).take (min a.length b.length) = a.zip b :=
    List.take_of_length_le (by simp [List.length_zip])
  rw [List.zip_eq_zipWith, ← List.take_zipWith, ← List.zip_eq_zipWith, h]

theorem chunkSpansAux_shape (n m o fuel start : Nat) (hs : start < n)
    (hf : 0 < fuel) :
    ∃ rest, chunkSpansAux n m o start fuel = (start, min (start + m) n) :: rest := by
  cases fuel with
  | zero => omega
  | succ f =>
      simp only [chunkSpansAux, if_pos hs]
      by_cases he : min (start + m) n = n
      · exact ⟨[], by rw [if_pos he]⟩
      · exact ⟨_, by rw [if_neg he]⟩

theorem chunkSpansAux_mem (n m o : Nat) (hm : 0 < m) (ho : o < m) :
    ∀ (fuel start : Nat), start < n →
    ∀ p ∈ chunkSpansAux n m o start fuel,
      start ≤ p.1 ∧ p.1 < p.2 ∧ p.2 = min (p.1 + m) n := by
  intro fuel
  induction fuel with
  | zero =>
      intro start hs p hp
      simp [chunkSpansAux] at hp
  | succ f ih =>
      intro start hs p hp
      simp only [chunkSpansAux, if_pos hs] at hp
      by_cases he : min (start + m) n = n
      · rw [if_pos he] at hp
        rw [List.mem_singleton] at hp
        subst hp
        exact ⟨le_refl _, by omega, rfl⟩
      · rw [if_neg he] at hp
        rcases List.mem_cons.mp hp with hp | hp
        · subst hp
          exact ⟨le_refl _, by omega, rfl⟩
        · have hlt : min (start + m) n - o < n := by omega
          have h3 := ih (min (start + m) n - o) hlt p hp
          exact ⟨by omega, h3.2.1, h3.2.2⟩

theorem chunkSpansAux_head (n m o fuel start : Nat) :
    ∀ q ∈ (chunkSpansAux n m o start fuel).head?, q.1 = start := by
  cases fuel with
  | zero => simp [chunkSpansAux]
  | succ f =>
      simp only [chunkSpansAux]
      by_cases hs : start < n
      · rw [if_pos hs]
        by_cases he : min (start + m) n = n
        · rw [if_pos he]
          simp
        · rw [if_neg he]
          simp
      · rw [if_neg hs]
        simp

theorem chunkSpansAux_chain (n m o : Nat) (ho : o < m) :
    ∀ (fuel start : Nat),
      List.Chain' (fun p q : Nat × Nat => q.1 = p.1 + (m - o))
        (chunkSpansAux n m o start fuel) := by
  intro fuel
  induction fuel with
  | zero =>
      intro start
      simp [chunkSpansAux]
  | succ f ih =>
      intro start
      simp only [chunkSpansAux]
      by_cases hs : start < n
      · rw [if_pos hs]
        by_cases he : min (start + m) n = n
        · rw [if_pos he]
          simp
        · rw [if_neg he]
          rw [List.chain'_cons']
          refine ⟨?_, ih _⟩
          intro q hq
          have hq1 := chunkSpansAux_head n m o f (min (start + m) n - o) q hq
          omega
      · rw [if_neg hs]
        simp

theorem chunkSpansAux_last (n m o : Nat) (ho : o < m) :
    ∀ (fuel start : Nat), start < n → n - start ≤ fuel →
    ∀ p : Nat × Nat, (chunkSpansAux n m o start fuel).getLast? = some p →
      p.2 = n := by
  intro fuel
  induction fuel with
  | zero =>
      intro start hs hf
      omega
  | succ f ih =>
      intro start hs hf p hp
      simp only [chunkSpansAux, if_pos hs] at hp
      by_cases he : min (start + m) n = n
      · rw [if_pos he] at hp
        simp only [List.getLast?_singleton, Option.some.injEq] at hp
        rw [← hp]
        exact he
      · rw [if_neg he] at hp
        have hlt : min (start + m) n - o < n := by omega
        have hf2 : n - (min (start + m) n - o) ≤ f := by omega
        obtain ⟨rest, hrest⟩ :=
          chunkSpansAux_shape n m o f (min (start + m) n - o) hlt (by omega)
        rw [hrest, List.getLast?_cons_cons, ← hrest] at hp
        exact ih (min (start + m) n - o) hlt hf2 p hp

theorem slice_append (tokens : List Char) (a b c : Nat) (hab : a ≤ b)
    (hbc : b ≤ c) :
    slice tokens a b ++ slice tokens b c = slice tokens a c := by
  have hd : tokens.drop b = (tokens.drop a).drop (b - a) := by
    rw [List.drop_drop]
    congr 1
    omega
  have hc2 : c - a = (b - a) + (c - b) := by omega
  simp only [slice]
  rw [hd, hc2, List.take_add]

theorem slice_drop (tokens : List Char) (s e o : Nat) :
    (slice tokens s e).drop o = slice tokens (s + o) e := by
  simp only [slice]
  rw [List.drop_take, List.drop_drop]
  have h1 : e - s - o = e - (s + o) := by omega
  rw [h1]

theorem slice_ne_nil (tokens : List Char) {s e : Nat} (hse : s < e)
    (hen : e ≤ tokens.length) : slice tokens s e ≠ [] := by
  intro h
  have hl := congrArg List.length h
  simp only [slice, List.length_take, List.length_drop, List.length_nil] at hl
  omega

theorem glueTail_eq (tokens : List Char) (m o : Nat) (_hm : 0 < m) (ho : o < m) :
    ∀ (fuel start : Nat), start < tokens.length → tokens.length - start ≤ fuel →
      glueTail tokens o (chunkSpansAux tokens.length m o start fuel) =
        slice tokens (start + o) tokens.length := by
  intro fuel
  induction fuel with
  | zero =>
      intro start hs hf
      omega
  | succ f ih =>
      intro start hs hf
      simp only [chunkSpansAux, if_pos hs]
      by_cases he : min (start + m) tokens.length = tokens.length
      · rw [if_pos he]
        simp [glueTail, he]
      · rw [if_neg he]
        have hrec := ih (min (start + m) tokens.length - o) (by omega) (by omega)
        simp only [glueTail, List.map_cons, List.flatten_cons] at hrec ⊢
        rw [hrec]
        have h2 : min (start + m) tokens.length - o + o = start + m := by omega
        have h3 : min (start + m) tokens.length = start + m := by omega
        rw [h2, h3]
        exact slice_append tokens (start + o) (start + m) tokens.length
          (by omega) (by omega)

theorem glueSpans_eq (tokens : List Char) (m o : Nat) (hm : 0 < m) (ho : o < m) :
    ∀ (fuel start : Nat), start < tokens.length → tokens.length - start ≤ fuel →
      glueSpans tokens o (chunkSpansAux tokens.length m o start fuel) =
        slice tokens start tokens.length := by
  intro fuel start hs hf
  cases fuel with
  | zero => omega
  | succ f =>
      simp only [chunkSpansAux, if_pos hs]
      by_cases he : min (start + m) tokens.length = tokens.length
      · rw [if_pos he]
        simp [glueSpans, glueTail, he]
      · rw [if_neg he]
        rw [glueSpans]
        rw [glueTail_eq tokens m o hm ho f (min (start + m) tokens.length - o)
          (by omega) (by omega)]
        have h2 : min (start + m) tokens.length - o + o = start + m := by omega
        have h3 : min (start + m) tokens.length = start + m := by omega
        rw [h2, h3]
        exact slice_append tokens start (start + m) tokens.length
          (by omega) (by omega)

theorem dropWhile_ws_eq_self {l : List Char}
    (hw : ∀ c ∈ l, ¬ c.isWhitespace) :
    l.dropWhile Char.isWhitespace = l := by
  cases l with
  | nil => rfl
  | cons c t =>
      have h := hw c (List.mem_cons_self c t)
      simp [List.dropWhile_cons, h]

theorem pyStripList_of_no_ws {l : List Char}
    (hw : ∀ c ∈ l, ¬ c.isWhitespace) :
    pyStripList l = l := by
  unfold pyStripList
  rw [dropWhile_ws_eq_self hw,
    dropWhile_ws_eq_self (fun c hc => hw c (List.mem_reverse.mp hc)),
    List.reverse_reverse]

theorem pyStripList_length_le (l : List Char) :
    (pyStripList l).length ≤ l.length := by
  unfold pyStripList
  rw [List.length_reverse]
  calc ((l.dropWhile Char.isWhitespace).reverse.dropWhile Char.isWhitespace).length
      ≤ (l.dropWhile Char.isWhitespace).reverse.length :=
        (List.dropWhile_sublist _).length_le
    _ = (l.dropWhile Char.isWhitespace).length := List.length_reverse _
    _ ≤ l.length := (List.dropWhile_sublist _).length_le

theorem getLast?_dropWhile_of_ne_nil (p : Char → Bool) : ∀ (l : List Char),
    l.dropWhile p ≠ [] → (l.dropWhile p).getLast? = l.getLast? := by
  intro l
  induction l with
  | nil =>
      intro h
      simp at h
  | cons a t ih =>
      intro h
      by_cases hp : p a = true
      · simp only [List.dropWhile_cons, hp, if_true] at h ⊢
        rw [ih h]
        cases t with
        | nil => simp at h
        | cons b t2 => rw [List.getLast?_cons_cons]
      · simp [List.dropWhile_cons, hp]

theorem pyStripList_getLast_not_ws {l : List Char} {c : Char}
    (h : (pyStripList l).getLast? = some c) : c.isWhitespace = false := by
  unfold pyStripList at h
  rw [List.getLast?_reverse] at h
  have hm := List.head?_dropWhile_not Char.isWhitespace
    (l.dropWhile Char.isWhitespace).reverse
  rw [h] at hm
  exact hm

theorem pyStripList_head_not_ws {l : List Char} {c : Char}
    (h : (pyStripList l).head? = some c) : c.isWhitespace = false := by
  unfold pyStripList at h
  rw [List.head?_reverse] at h
  have hne : (l.dropWhile Char.isWhitespace).reverse.dropWhile Char.isWhitespace ≠ [] := by
    intro hnil
    rw [hnil] at h
    simp at h
  rw [getLast?_dropWhile_of_ne_nil _ _ hne, List.getLast?_reverse] at h
  have hm := List.head?_dropWhile_not Char.isWhitespace l
  rw [h] at hm
  exact hm

theorem chunk_text_eq_of_no_ws (T : String) (m o : Nat) (hm : 0 < m) (ho : o < m)
    (hw : ∀ c ∈ T.data, ¬ c.isWhitespace) :
    chunk_text T m o = (chunkSpans T.data.length m o).map
      (fun p => String.mk (slice T.data p.1 p.2)) := by
  by_cases hT : T = ""
  · subst hT
    rfl
  · have hne : T.data ≠ [] := fun h => hT (String.ext h)
    have hn : 0 < T.data.length := List.length_pos.mpr hne
    have hmem := chunkSpansAux_mem T.data.length m o hm ho T.data.length 0 hn
    unfold chunk_text
    rw [if_neg hT]
    show ((((chunkSpans T.data.length m o).map
        (fun p => slice T.data p.1 p.2)).map pyStripList).filter
          (fun c => decide (c ≠ []))).map String.mk = _
    rw [List.map_map]
    have h1 : (chunkSpans T.data.length m o).map (pyStripList ∘ fun p => slice T.data p.1 p.2) =
        (chunkSpans T.data.length m o).map (fun p => slice T.data p.1 p.2) := by
      apply List.map_congr_left
      intro p hp
      show pyStripList (slice T.data p.1 p.2) = slice T.data p.1 p.2
      apply pyStripList_of_no_ws
      intro c hc
      exact hw c (List.mem_of_mem_drop (List.mem_of_mem_take hc))
    rw [h1]
    have h2 : ((chunkSpans T.data.length m o).map
        (fun p => slice T.data p.1 p.2)).filter (fun c => decide (c ≠ [])) =
        (chunkSpans T.data.length m o).map (fun p => slice T.data p.1 p.2) := by
      rw [List.filter_eq_self]
      intro w hwmem
      obtain ⟨p, hp, rfl⟩ := List.mem_map.1 hwmem
      have h3 := hmem p hp
      exact decide_eq_true (slice_ne_nil T.data h3.2.1 (by omega))
    rw [h2, List.map_map]
    apply List.map_congr_left
    intro p _
    rfl

theorem reassemble_map_eq_glue (tokens : List Char) (o : Nat) :
    ∀ spans : List (Nat × Nat),
      (reassemble (spans.map (fun p => String.mk (slice tokens p.1 p.2))) o).data =
        glueSpans tokens o spans := by
  intro spans
  cases spans with
  | nil => rfl
  | cons p rest =>
      show slice tokens p.1 p.2 ++
          ((rest.map (fun p => String.mk (slice tokens p.1 p.2))).map
            (fun s => s.data.drop o)).flatten =
        slice tokens p.1 p.2 ++ glueTail tokens o rest
      congr 1
      rw [List.map_map]
      unfold glueTail
      congr 1
      apply List.map_congr_left
      intro q _
      show (slice tokens q.1 q.2).drop o = slice tokens (q.1 + o) q.2
      exact slice_drop tokens q.1 q.2 o

theorem scoredResults_length (q : Vec) (docs : List Document) :
    (scoredResults q docs).length = totalChunks docs := by
  simp [scoredResults, totalChunks, List.flatMap, List.length_flatten,
    List.map_map, Function.comp_def]

theorem rankLE_trans : ∀ (a b c : ℚ × String × String),
    rankLE a b → rankLE b c → rankLE a c := by
  intro x y z hxy hyz
  simp only [rankLE, decide_eq_true_eq] at *
  exact le_trans hyz hxy

theorem rankLE_total : ∀ (a b : ℚ × String × String), rankLE a b || rankLE b a := by
  intro x y
  simp only [rankLE, Bool.or_eq_true, decide_eq_true_eq]
  exact le_total y.1 x.1

/-! ## Claims -/

/-- C8: for every pair of vectors, if either has zero magnitude (sum of
squared components equal to zero) then `cosine_similarity` returns exactly
`0`, and the division by the product of the norms is reached only when both
magnitudes are nonzero (the branch condition `zna = 0 ∨ znb = 0` being
false forces both full magnitudes nonzero). -/
theorem cosine_similarity_zero_magnitude (a b : Vec) :
    ((sumsq a = 0 ∨ sumsq b = 0) → cosine_similarity a b = 0) ∧
    (¬(zna a b = 0 ∨ znb a b = 0) →
      cosine_similarity a b =
        zdot a b / (Rat.sqrt (zna a b) * Rat.sqrt (znb a b)) ∧
      sumsq a ≠ 0 ∧ sumsq b ≠ 0) := by
  constructor
  · intro h
    unfold cosine_similarity
    rcases h with h | h
    · rw [if_pos (Or.inl (zna_eq_zero_of_sumsq_eq_zero b h))]
    · rw [if_pos (Or.inr (znb_eq_zero_of_sumsq_eq_zero a h))]
  · intro h
    refine ⟨by rw [cosine_similarity, if_neg h], ?_, ?_⟩
    · intro ha
      exact h (Or.inl (zna_eq_zero_of_sumsq_eq_zero b ha))
    · intro hb
      exact h (Or.inr (znb_eq_zero_of_sumsq_eq_zero a hb))

/-- Witness for C8 at a concrete zero-magnitude input. -/
theorem cosine_similarity_zero_magnitude_witness :
    cosine_similarity [0] [1, 2] = 0 :=
  (cosine_similarity_zero_magnitude [0] [1, 2]).1 (Or.inl (by simp [sumsq]))

/-- C10: `cosine_similarity` on vectors of unequal length silently computes
the score over the common index range only (`zip` truncation) and returns a
plain number, and the ranking loop scores every chunk unconditionally — one
scored entry per stored chunk, whatever the embedding dimensions are — so a
dimension mismatch is never detected or reported. -/
theorem cosine_similarity_truncates_silently (a b : Vec) :
    cosine_similarity a b =
      cosine_similarity (a.take (min a.length b.length))
        (b.take (min a.length b.length)) ∧
    ∀ (q : Vec) (docs : List Document),
      (scoredResults q docs).length = totalChunks docs := by
  constructor
  · simp only [cosine_similarity, zdot, zna, znb, zip_take_min]
  · intro q docs
    exact scoredResults_length q docs

/-- C3: for a non-empty batch, `embed_texts` either returns the `[]` failure
marker — distinguishable, since a success on a non-empty batch is non-empty
— or exactly one vector per input text, provided the provider response
itself is length-preserving (its documented contract; the provider is an
external collaborator). -/
theorem embed_texts_length_or_failure (resp : EmbedResp) (texts : List String)
    (hne : texts ≠ [])
    (hresp : ∀ v, resp = some v → v.length = texts.length) :
    embed_texts resp texts = [] ∨
      ((embed_texts resp texts).length = texts.length ∧
        embed_texts resp texts ≠ []) := by
  unfold embed_texts
  rw [if_neg hne]
  cases resp with
  | none => exact Or.inl rfl
  | some v =>
      right
      have hv := hresp v rfl
      refine ⟨hv, ?_⟩
      intro hnil
      have hnil' : v = [] := hnil
      rw [hnil'] at hv
      exact hne (List.length_eq_zero.mp hv.symm)

/-- Witness for C3 on a failing one-element batch. -/
theorem embed_texts_length_or_failure_witness :
    embed_texts none ["a"] = [] ∨
      ((embed_texts none ["a"]).length = (["a"] : List String).length ∧
        embed_texts none ["a"] ≠ []) :=
  embed_texts_length_or_failure none ["a"] (by simp) (fun _ h => nomatch h)

/-- C1: whenever ingestion fails one of its validation steps — empty raw
text, zero chunks, embedding failure, or a vector count different from the
chunk count — `ingest_pdf_to_db` returns `none` and the persisted tenant
state afterwards is exactly the prior state. -/
theorem ingest_no_write_on_failure (raw : String) (resp : EmbedResp)
    (d src nm : String) (db : DB)
    (h : raw = "" ∨ chunk_text raw 1200 150 = [] ∨
        embed_texts resp (chunk_text raw 1200 150) = [] ∨
        (embed_texts resp (chunk_text raw 1200 150)).length ≠
          (chunk_text raw 1200 150).length) :
    ingest_pdf_to_db raw resp d src nm db = (none, db) := by
  unfold ingest_pdf_to_db
  rcases h with h | h | h | h
  · rw [if_pos h]
  · rcases eq_or_ne raw "" with h1 | h1
    · rw [if_pos h1]
    · rw [if_neg h1, if_pos h]
  · rcases eq_or_ne raw "" with h1 | h1
    · rw [if_pos h1]
    · rcases eq_or_ne (chunk_text raw 1200 150) [] with h2 | h2
      · rw [if_neg h1, if_pos h2]
      · rw [if_neg h1, if_neg h2, if_pos (Or.inl h)]
  · rcases eq_or_ne raw "" with h1 | h1
    · rw [if_pos h1]
    · rcases eq_or_ne (chunk_text raw 1200 150) [] with h2 | h2
      · rw [if_neg h1, if_pos h2]
      · rw [if_neg h1, if_neg h2, if_pos (Or.inr h)]

/-- Witness for C1: failed ingestion (no extracted text) over a non-empty
prior state leaves that state untouched. -/
theorem ingest_no_write_on_failure_witness :
    ingest_pdf_to_db "" none "d" "/tmp/a.pdf" "a.pdf"
        ⟨[⟨"olddoc", "/tmp/b.pdf", "b.pdf", [⟨"olddoc_0", "t", [1]⟩]⟩]⟩ =
      (none, ⟨[⟨"olddoc", "/tmp/b.pdf", "b.pdf", [⟨"olddoc_0", "t", [1]⟩]⟩]⟩) :=
  ingest_no_write_on_failure "" none "d" "/tmp/a.pdf" "a.pdf" _ (Or.inl rfl)

/-- C4 counterexample: with a document in the store, a failed query
embedding makes `search_db` return `[]` — the very value returned for a
store with zero documents — and `retrieve` renders the two situations as the
same string; no typed `QueryEmbeddingFailed` failure distinguishable from
the empty-store result is ever produced. -/
theorem query_embed_failure_not_typed_counterexample :
    search_db ⟨[⟨"doc1", "/tmp/a.pdf", "a.pdf", [⟨"doc1_0", "hello", [1]⟩]⟩]⟩
        none "q" 5 = [] ∧
    search_db ⟨[]⟩ (some [[1]]) "q" 5 = [] ∧
    retrieve "q" 0 0 5 none
        ⟨[⟨"doc1", "/tmp/a.pdf", "a.pdf", [⟨"doc1_0", "hello", [1]⟩]⟩]⟩ none =
      retrieve "q" 0 0 5 none ⟨[]⟩ (some [[1]]) := by
  refine ⟨rfl, rfl, rfl⟩

/-- C4 amended: if embedding the query fails, `search_db` returns the empty
list after logging — the same value as for a tenant store with zero
documents — and `retrieve` maps both situations to the same "no results"
message, so the caller cannot distinguish a query-embedding failure from an
empty store. -/
theorem query_embed_failure_indistinguishable (db : DB) (q : String)
    (k : Int) (resp : EmbedResp) (u s : Int) (hq : q ≠ "") :
    search_db db none q k = [] ∧
    search_db ⟨[]⟩ resp q k = [] ∧
    retrieve q u s k none db none = noResultsMsg u s ∧
    retrieve q u s k none ⟨[]⟩ resp = noResultsMsg u s := by
  have h1 : search_db db none q k = [] := by
    simp [search_db, embed_texts]
  have h2 : search_db ⟨[]⟩ resp q k = [] := by
    simp [search_db]
  refine ⟨h1, h2, ?_, ?_⟩
  · simp [retrieve, hq, h1]
  · simp [retrieve, hq, h2]

/-- Witness for C4's amended statement at concrete inputs. -/
theorem query_embed_failure_indistinguishable_witness :
    search_db ⟨[⟨"d1", "/p.pdf", "p.pdf", [⟨"d1_0", "txt", [2]⟩]⟩]⟩ none "hi" 3 = [] ∧
    search_db ⟨[]⟩ (some [[2]]) "hi" 3 = [] ∧
    retrieve "hi" 1 2 3 none ⟨[⟨"d1", "/p.pdf", "p.pdf", [⟨"d1_0", "txt", [2]⟩]⟩]⟩ none =
      noResultsMsg 1 2 ∧
    retrieve "hi" 1 2 3 none ⟨[]⟩ (some [[2]]) = noResultsMsg 1 2 :=
  query_embed_failure_indistinguishable
    ⟨[⟨"d1", "/p.pdf", "p.pdf", [⟨"d1_0", "txt", [2]⟩]⟩]⟩ "hi" 3 (some [[2]]) 1 2
    (by decide)

/-- C9: `retrieve` is a total `String`-valued function over every
environment, including every modelled failure (client-creation exception,
embedding failure, empty store): its result is always one of the four
defined strings — validation message, caught-and-wrapped error string,
"no results" message, or the formatted hit list — never a propagated
exception. -/
theorem retrieve_never_raises (query : String) (u s k : Int)
    (exc : Option String) (db : DB) (resp : EmbedResp) :
    retrieve query u s k exc db resp = "Query must be a non-empty string." ∨
    (∃ e, exc = some e ∧
      retrieve query u s k exc db resp = "[retrieve tool error] " ++ e) ∨
    retrieve query u s k exc db resp = noResultsMsg u s ∨
    retrieve query u s k exc db resp = formatHits (search_db db resp query k) := by
  unfold retrieve
  rcases eq_or_ne query "" with h | h
  · left
    rw [if_pos h]
  · rw [if_neg h]
    cases exc with
    | some e => exact Or.inr (Or.inl ⟨e, rfl, rfl⟩)
    | none =>
        rcases eq_or_ne (search_db db resp query k) [] with h2 | h2
        · right; right; left
          simp [h2]
        · right; right; right
          simp [h2]

/-- C5: ranking returns `min(top_k clamped to at least 1, total chunk
count)` results (`min(top_k, total)` whenever `top_k ≥ 1`), in
non-increasing score order; the output is a truncation of the stable
descending sort of the scored results, where stability — ties keep original
insertion order — is characterised by every descending-sorted sublist of the
input remaining a sublist of the sorted list; and a result is always
non-empty when any chunk exists, even for `top_k ≤ 0`. -/
theorem rank_spec (q : Vec) (docs : List Document) (k : Int) :
    (rank q docs k).length = min (max 1 k).toNat (totalChunks docs) ∧
    (1 ≤ k → (rank q docs k).length = min k.toNat (totalChunks docs)) ∧
    List.Pairwise (fun x y => (y.1 : ℚ) ≤ x.1) (rank q docs k) ∧
    (∀ c : List (ℚ × String × String),
      c.Pairwise (fun x y => (y.1 : ℚ) ≤ x.1) →
      c.Sublist (scoredResults q docs) →
      c.Sublist ((scoredResults q docs).mergeSort rankLE)) ∧
    (rank q docs k).Sublist ((scoredResults q docs).mergeSort rankLE) ∧
    (totalChunks docs ≠ 0 → rank q docs k ≠ []) := by
  have hlen : (rank q docs k).length = min (max 1 k).toNat (totalChunks docs) := by
    rw [rank, List.length_take, List.length_mergeSort, scoredResults_length]
  have hsorted := List.sorted_mergeSort rankLE_trans rankLE_total (scoredResults q docs)
  refine ⟨hlen, ?_, ?_, ?_, List.take_sublist _ _, ?_⟩
  · intro hk
    rw [hlen]
    congr 1
    omega
  · have hp : (rank q docs k).Pairwise (fun x y => rankLE x y = true) :=
      List.Pairwise.sublist (List.take_sublist _ _) hsorted
    exact hp.imp (fun h => by simpa [rankLE, decide_eq_true_eq] using h)
  · intro c hc hsub
    exact List.sublist_mergeSort rankLE_trans rankLE_total
      (hc.imp (fun h => by simp [rankLE, decide_eq_true_eq, h])) hsub
  · intro htot
    rw [← List.length_pos, hlen]
    omega

/-- Witness for C5: with two stored chunks and `top_k = 0`, the result has
length `min(max(1, 0), 2) = 1` and is non-empty. -/
theorem rank_spec_witness :
    (rank [1] [⟨"d", "s", "n", [⟨"c0", "t0", [1]⟩, ⟨"c1", "t1", [2]⟩]⟩] 0).length = 1 ∧
    rank [1] [⟨"d", "s", "n", [⟨"c0", "t0", [1]⟩, ⟨"c1", "t1", [2]⟩]⟩] 0 ≠ [] := by
  have h := rank_spec [1] [⟨"d", "s", "n", [⟨"c0", "t0", [1]⟩, ⟨"c1", "t1", [2]⟩]⟩] 0
  refine ⟨?_, h.2.2.2.2.2 (by simp [totalChunks])⟩
  have h1 := h.1
  simpa [totalChunks] using h1

/-- C6: a successful ingestion returning document id `d` appends exactly one
document to the tenant store; its chunk count equals the number of text
windows produced and the number of embedding vectors received, and the chunk
at position `i` pairs window `i` with vector `i` under the identifier
`d ++ "_" ++ i`. -/
theorem ingest_success_pairs (raw : String) (resp : EmbedResp)
    (d src nm : String) (db : DB) (d' : String) (db' : DB)
    (h : ingest_pdf_to_db raw resp d src nm db = (some d', db')) :
    d' = d ∧
    ∃ rec : Document,
      db'.documents = db.documents ++ [rec] ∧
      rec.document_id = d ∧
      rec.chunks.length = (chunk_text raw 1200 150).length ∧
      (embed_texts resp (chunk_text raw 1200 150)).length =
        (chunk_text raw 1200 150).length ∧
      ∀ (i : Nat) (c : Chunk), rec.chunks[i]? = some c →
        c.chunk_id = d ++ "_" ++ toString i ∧
        (chunk_text raw 1200 150)[i]? = some c.text ∧
        (embed_texts resp (chunk_text raw 1200 150))[i]? = some c.embedding := by
  unfold ingest_pdf_to_db at h
  by_cases h1 : raw = ""
  · rw [if_pos h1] at h
    simp at h
  · rw [if_neg h1] at h
    by_cases h2 : chunk_text raw 1200 150 = []
    · rw [if_pos h2] at h
      simp at h
    · rw [if_neg h2] at h
      by_cases h3 : embed_texts resp (chunk_text raw 1200 150) = [] ∨
          (embed_texts resp (chunk_text raw 1200 150)).length ≠
            (chunk_text raw 1200 150).length
      · rw [if_pos h3] at h
        simp at h
      · rw [if_neg h3] at h
        push_neg at h3
        obtain ⟨-, h5⟩ := h3
        injection h with hd hdb
        injection hd with hd
        refine ⟨hd.symm, ingestRecord d src nm (chunk_text raw 1200 150)
          (embed_texts resp (chunk_text raw 1200 150)), ?_, rfl, ?_, h5, ?_⟩
        · rw [← hdb]
        · simp [ingestRecord, List.length_zip, h5]
        · intro i c hc
          simp only [ingestRecord, List.enum_eq_enumFrom, List.getElem?_map,
            List.getElem?_enumFrom, Nat.zero_add, Option.map_map] at hc
          rw [Option.map_eq_some'] at hc
          obtain ⟨p, hp, hcp⟩ := hc
          obtain ⟨hp1, hp2⟩ := List.getElem?_zip_eq_some.mp hp
          subst hcp
          exact ⟨rfl, by simpa using hp1, by simpa using hp2⟩

/-- Witness for C6: a concrete successful ingestion. -/
theorem ingest_success_pairs_witness :
    ("d" : String) = "d" ∧
    ∃ rec : ReadPdf.Document,
      (⟨[⟨"d", "/tmp/a.pdf", "a.pdf",
          [⟨"d_0", "abc", [1]⟩]⟩]⟩ : DB).documents = [] ++ [rec] ∧
      rec.document_id = "d" ∧
      rec.chunks.length = (chunk_text "abc" 1200 150).length ∧
      (embed_texts (some [[1]]) (chunk_text "abc" 1200 150)).length =
        (chunk_text "abc" 1200 150).length ∧
      ∀ (i : Nat) (c : Chunk), rec.chunks[i]? = some c →
        c.chunk_id = "d" ++ "_" ++ toString i ∧
        (chunk_text "abc" 1200 150)[i]? = some c.text ∧
        (embed_texts (some [[1]]) (chunk_text "abc" 1200 150))[i]? =
          some c.embedding := by
  have h := ingest_success_pairs "abc" (some [[1]]) "d" "/tmp/a.pdf" "a.pdf"
    ⟨[]⟩ "d" ⟨[⟨"d", "/tmp/a.pdf", "a.pdf", [⟨"d_0", "abc", [1]⟩]⟩]⟩ (by decide)
  simpa using h

/-- C2 counterexample: with `max_chars = 2 > 0` and `overlap = 0 < 2`, the
text `"a b"` chunks to `["a", "b"]` (the space is trimmed away from the
first window), so concatenation with overlaps removed yields `"ab"`, not the
original text — a character is dropped and the claimed reconstruction
fails. -/
theorem chunk_coverage_counterexample :
    reassemble (chunk_text "a b" 2 0) 0 ≠ "a b" := by decide

/-- C2 amended: for every text whose characters contain no whitespace (so
per-window trimming is the identity and no window is dropped) and every
`max_chars > 0`, `0 ≤ overlap < max_chars`, concatenating the chunks with
the `overlap`-length duplicated prefix of each chunk after the first removed
reconstructs the text exactly. -/
theorem chunk_reassemble_no_ws (T : String) (m o : Nat) (hm : 0 < m)
    (ho : o < m) (hw : ∀ c ∈ T.data, ¬ c.isWhitespace) :
    reassemble (chunk_text T m o) o = T := by
  by_cases hT : T = ""
  · subst hT
    rfl
  · have hne : T.data ≠ [] := fun h => hT (String.ext h)
    have hn : 0 < T.data.length := List.length_pos.mpr hne
    apply String.ext
    rw [chunk_text_eq_of_no_ws T m o hm ho hw, reassemble_map_eq_glue]
    show glueSpans T.data o (chunkSpansAux T.data.length m o 0 T.data.length) =
      T.data
    rw [glueSpans_eq T.data m o hm ho T.data.length 0 hn (by omega)]
    show (T.data.drop 0).take (T.data.length - 0) = T.data
    simp

/-- Witness for C2's amended statement on a whitespace-free text. -/
theorem chunk_reassemble_no_ws_witness :
    reassemble (chunk_text "abcd" 2 1) 1 = "abcd" :=
  chunk_reassemble_no_ws "abcd" 2 1 (by decide) (by decide) (by decide)

/-- C7: for a non-empty text and `max_chars > 0`, `0 ≤ overlap < max_chars`,
the chunking loop visits consecutive spans in which the first starts at 0,
every span ends at `min (start + max_chars) n` (so windows hold at most
`max_chars` characters), each subsequent span starts exactly
`max_chars - overlap` after the previous span's start, the final span ends
exactly at end-of-text, and every emitted chunk is non-empty, at most
`max_chars` long, and carries no leading or trailing whitespace. -/
theorem chunk_text_window_spec (T : String) (m o : Nat)
    (hm : 0 < m) (ho : o < m) (hT : T ≠ "") :
    (∃ rest, chunkSpans T.data.length m o = (0, min m T.data.length) :: rest) ∧
    (∀ p ∈ chunkSpans T.data.length m o,
        p.1 < p.2 ∧ p.2 = min (p.1 + m) T.data.length) ∧
    List.Chain' (fun p q : Nat × Nat => q.1 = p.1 + (m - o))
      (chunkSpans T.data.length m o) ∧
    (∀ p : Nat × Nat, (chunkSpans T.data.length m o).getLast? = some p →
        p.2 = T.data.length) ∧
    (∀ s ∈ chunk_text T m o,
        s.data ≠ [] ∧ s.data.length ≤ m ∧
        (∀ c, s.data.head? = some c → c.isWhitespace = false) ∧
        (∀ c, s.data.getLast? = some c → c.isWhitespace = false)) := by
  have hne : T.data ≠ [] := fun h => hT (String.ext h)
  have hn : 0 < T.data.length := List.length_pos.mpr hne
  refine ⟨?_, ?_, ?_, ?_, ?_⟩
  · obtain ⟨rest, hrest⟩ :=
      chunkSpansAux_shape T.data.length m o T.data.length 0 hn (by omega)
    exact ⟨rest, by rw [chunkSpans, hrest, Nat.zero_add]⟩
  · intro p hp
    have h := chunkSpansAux_mem T.data.length m o hm ho T.data.length 0 hn p hp
    exact ⟨h.2.1, h.2.2⟩
  · exact chunkSpansAux_chain T.data.length m o ho T.data.length 0
  · intro p hp
    exact chunkSpansAux_last T.data.length m o ho T.data.length 0 hn (by omega) p hp
  · intro s hs
    simp only [chunk_text, if_neg hT, List.mem_map, List.mem_filter] at hs
    obtain ⟨c, ⟨hex, hcne⟩, rfl⟩ := hs
    obtain ⟨w, hw2, rfl⟩ := hex
    obtain ⟨p, hp, rfl⟩ := hw2
    have hmemp := chunkSpansAux_mem T.data.length m o hm ho T.data.length 0 hn p hp
    refine ⟨of_decide_eq_true hcne, ?_, ?_, ?_⟩
    · calc (pyStripList (slice T.data p.1 p.2)).length
          ≤ (slice T.data p.1 p.2).length := pyStripList_length_le _
        _ ≤ p.2 - p.1 := by
            simp only [slice]
            exact List.length_take_le _ _
        _ ≤ m := by omega
    · intro c hc
      exact pyStripList_head_not_ws hc
    · intro c hc
      exact pyStripList_getLast_not_ws hc

/-- Witness for C7: the consecutive-starts chain property at a concrete
input (`"abc"`, `max_chars = 2`, `overlap = 1`). -/
theorem chunk_text_window_spec_witness :
    List.Chain' (fun p q : Nat × Nat => q.1 = p.1 + (2 - 1))
      (chunkSpans ("abc" : String).data.length 2 1) :=
  (chunk_text_window_spec "abc" 2 1 (by decide) (by decide) (by decide)).2.2.1

end ReadPdf
